import Mathlib

/-!
Verification development for the coolTool repository (a Next.js dashboard that
browses GitHub repositories and generates documentation / chat answers with the
Gemini API).

Strings are modelled as `List Char` (`Str`).  JavaScript string primitives
(`toLowerCase`, `includes`, `startsWith`, `endsWith`, `split('/')`, `join('/')`)
are embedded as executable functions below.  Stateful/async code is embedded as
pure functions over explicit "world" values describing the outcomes of the
network calls the code makes.
-/

set_option linter.unnecessarySimpa false

/-- Strings are lists of characters. -/
abbrev Str := List Char

/-- JavaScript `String.prototype.toLowerCase`, restricted to the per-character
case mapping (sufficient for the ASCII identifiers and questions involved). -/
def toLowerStr (s : Str) : Str := s.map Char.toLower

/-- Auxiliary: does `p` occur at the very start of `s`?  (Both JS
`String.prototype.startsWith` and the inner step of `includes`.) -/
def startsWithStr : Str → Str → Bool
  | [], _ => true
  | _ :: _, [] => false
  | a :: as, b :: bs => a == b && startsWithStr as bs

/-- JavaScript `haystack.includes(needle)`: substring containment. -/
def strIncludes : Str → Str → Bool
  | [], needle => startsWithStr needle []
  | c :: t, needle => startsWithStr needle (c :: t) || strIncludes t needle

/-- JavaScript `haystack.endsWith(needle)`. -/
def strEndsWith (haystack needle : Str) : Bool :=
  startsWithStr needle.reverse haystack.reverse

/-- JavaScript `s.split('/')`: always returns a non-empty list of
slash-free segments. -/
def splitSlash : Str → List Str
  | [] => [[]]
  | c :: cs =>
    match splitSlash cs with
    | [] => [[]]
    | s :: rest => if c = '/' then [] :: s :: rest else (c :: s) :: rest

/-- JavaScript `parts.join('/')`. -/
def joinSlash : List Str → Str
  | [] => []
  | [s] => s
  | s :: rest => s ++ '/' :: joinSlash rest

theorem splitSlash_ne_nil (l : Str) : splitSlash l ≠ [] := by
  cases l with
  | nil => simp [splitSlash]
  | cons c cs =>
    simp only [splitSlash]
    cases splitSlash cs with
    | nil => simp
    | cons s rest =>
      by_cases h : c = '/' <;> simp [h]

theorem joinSlash_cons_cons (s t : Str) (rest : List Str) :
    joinSlash (s :: t :: rest) = s ++ '/' :: joinSlash (t :: rest) := rfl

theorem splitSlash_cons (c : Char) (cs s : Str) (rest : List Str)
    (hs : splitSlash cs = s :: rest) :
    splitSlash (c :: cs) =
      if c = '/' then [] :: s :: rest else (c :: s) :: rest := by
  simp [splitSlash, hs]

/-- Splitting on `'/'` and joining back with `'/'` is the identity. -/
theorem joinSlash_splitSlash (l : Str) : joinSlash (splitSlash l) = l := by
  induction l with
  | nil => rfl
  | cons c cs ih =>
    rcases hs : splitSlash cs with _ | ⟨s, rest⟩
    · exact absurd hs (splitSlash_ne_nil cs)
    · rw [hs] at ih
      rw [splitSlash_cons c cs s rest hs]
      by_cases h : c = '/'
      · subst h
        rw [if_pos rfl, joinSlash_cons_cons, List.nil_append, ih]
      · rw [if_neg h]
        cases rest with
        | nil => simpa [joinSlash] using ih
        | cons t rest' =>
          rw [joinSlash_cons_cons] at ih ⊢
          simp only [List.cons_append]
          rw [ih]

/-- A string without a `'/'` splits into the single segment equal to itself. -/
theorem splitSlash_no_slash (l : Str) (h : '/' ∉ l) : splitSlash l = [l] := by
  induction l with
  | nil => rfl
  | cons c cs ih =>
    simp only [List.mem_cons, not_or] at h
    have hc : ¬ c = '/' := fun e => h.1 e.symm
    simp only [splitSlash, ih h.2, if_neg hc]

/-!
## Relevance selector (`src/unnamed/part_000`, lines 749–845)

`selectRelevantFiles` and `scoreFileRelevance`, embedded from the source.
JavaScript's `Array.prototype.sort` with comparator `bScore - aScore` is
embedded as a stable insertion sort that orders strictly larger scores first
(modern engines' stable sort with that comparator).
-/

/-- Source `scoreFileRelevance` (part_000 lines 840–845): count how many of the
keywords occur in the lower-cased file path. -/
def scoreFileRelevance (filePath : Str) (keywords : List Str) : Nat :=
  keywords.foldl
    (fun score keyword =>
      score + (if strIncludes (toLowerStr filePath) keyword then 1 else 0)) 0

/-- Stable descending insertion of one element (helper for the sort model). -/
def insertDesc (score : Str → Nat) (x : Str) : List Str → List Str
  | [] => [x]
  | y :: ys => if score y < score x then x :: y :: ys else y :: insertDesc score x ys

/-- Stable sort, larger scores first: model of
`array.sort((a, b) => score(b) - score(a))`. -/
def sortByScoreDesc (score : Str → Nat) : List Str → List Str
  | [] => []
  | x :: xs => insertDesc score x (sortByScoreDesc score xs)

/-- The `fileMatchers` table of part_000 lines 754–762 (category ↦ keywords). -/
def fileMatchers : List (Str × List Str) :=
  [("github api".data, ["github".data, "api".data, "fetch".data, "request".data]),
   ("repository".data, ["repository".data, "repo".data, "github".data]),
   ("authentication".data, ["auth".data, "login".data, "signin".data, "signup".data, "clerk".data]),
   ("ui components".data, ["component".data, "button".data, "card".data, "layout".data]),
   ("styling".data, ["css".data, "style".data, "tailwind".data]),
   ("routing".data, ["route".data, "page".data, "navigation".data]),
   ("api integration".data, ["api".data, "fetch".data, "request".data, "axios".data])]

/-- The `githubApiPriorities` list of part_000 lines 780–782. -/
def githubApiPriorities : List Str :=
  ["github".data, "api".data, "fetch".data, "request".data, "repo".data, "repository".data]

/-- Source `selectRelevantFiles` (part_000 lines 749–835), embedded step by
step: category activation, the GitHub-API special case with its filtered and
score-sorted candidates, the generic category filter, the `< 3` fallback fill
with `package.json` and `/lib/`-`/utils/`-`/api/` paths, and the final
`slice(0, 5)` cap. -/
def selectRelevantFiles (files : List Str) (question : Str) : List Str :=
  let lowerQuestion := toLowerStr question
  let relevantPairs :=
    fileMatchers.filter fun kv =>
      kv.2.any fun keyword => strIncludes lowerQuestion keyword
  let special :=
    strIncludes lowerQuestion "github api".data ||
    strIncludes lowerQuestion "fetch repo".data ||
    strIncludes lowerQuestion "repository fetch".data ||
    strIncludes lowerQuestion "github integration".data
  let relevantFiles :=
    if special then
      let potentialGithubFiles :=
        files.filter fun file =>
          let lowerFile := toLowerStr file
          strIncludes lowerFile "github".data ||
          strIncludes lowerFile "api".data ||
          strIncludes lowerFile "repo".data ||
          strIncludes lowerFile "fetch".data ||
          (strIncludes lowerFile "lib/".data &&
            (strEndsWith lowerFile ".js".data || strEndsWith lowerFile ".ts".data))
      (sortByScoreDesc (fun f => scoreFileRelevance f githubApiPriorities)
        potentialGithubFiles).take 5
    else
      (files.filter fun file =>
        let lowerFile := toLowerStr file
        relevantPairs.any fun kv =>
          kv.2.any fun keyword => strIncludes lowerFile keyword).take 5
  let relevantFiles2 :=
    if relevantFiles.length < 3 then
      let withPkg :=
        if !relevantFiles.contains "package.json".data &&
            files.contains "package.json".data then
          relevantFiles ++ ["package.json".data]
        else relevantFiles
      files.foldl
        (fun acc file =>
          if (strIncludes file "/lib/".data || strIncludes file "/utils/".data ||
              strIncludes file "/api/".data) &&
              !acc.contains file && acc.length < 5 then
            acc ++ [file]
          else acc)
        withPkg
    else relevantFiles
  relevantFiles2.take 5

theorem mem_insertDesc (score : Str → Nat) (x a : Str) (l : List Str)
    (h : a ∈ insertDesc score x l) : a = x ∨ a ∈ l := by
  induction l with
  | nil =>
    simp only [insertDesc, List.mem_singleton] at h
    exact Or.inl h
  | cons y ys ih =>
    simp only [insertDesc] at h
    split at h
    · simpa using h
    · rcases List.mem_cons.mp h with h1 | h1
      · exact Or.inr (by simp [h1])
      · rcases ih h1 with h2 | h2
        · exact Or.inl h2
        · exact Or.inr (by simp [h2])

theorem mem_sortByScoreDesc (score : Str → Nat) (a : Str) (l : List Str)
    (h : a ∈ sortByScoreDesc score l) : a ∈ l := by
  induction l with
  | nil => simpa [sortByScoreDesc] using h
  | cons x xs ih =>
    simp only [sortByScoreDesc] at h
    rcases mem_insertDesc _ _ _ _ h with h1 | h1
    · simp [h1]
    · exact List.mem_cons_of_mem _ (ih h1)

theorem mem_foldl_conditional_append (g : List Str → Str → Bool)
    (l : List Str) :
    ∀ (acc : List Str) (p : Str),
      p ∈ l.foldl (fun a x => if g a x then a ++ [x] else a) acc →
      p ∈ acc ∨ p ∈ l := by
  induction l with
  | nil => intro acc p hp; exact Or.inl (by simpa using hp)
  | cons x xs ih =>
    intro acc p hp
    simp only [List.foldl_cons] at hp
    rcases ih _ p hp with h1 | h1
    · split at h1
      · rcases List.mem_append.mp h1 with h2 | h2
        · exact Or.inl h2
        · exact Or.inr (by simp at h2; simp [h2])
      · exact Or.inl h1
    · exact Or.inr (List.mem_cons_of_mem _ h1)

/-- Claim C1: `selectRelevantFiles` returns at most 5 paths, and every returned
path is an element of the input list `files`. -/
theorem selectRelevantFiles_card_and_subset (files : List Str) (question : Str)
    (p : Str) (hp : p ∈ selectRelevantFiles files question) :
    (selectRelevantFiles files question).length ≤ 5 ∧ p ∈ files := by
  have htake : ∀ (l : List Str), (l.take 5).length ≤ 5 := by
    intro l
    rw [List.length_take]
    exact inf_le_left
  have hsorted : ∀ (sc : Str → Nat) (pred : Str → Bool) (q : Str),
      q ∈ (sortByScoreDesc sc (files.filter pred)).take 5 → q ∈ files := by
    intro sc pred q hq
    exact List.mem_of_mem_filter
      (mem_sortByScoreDesc _ _ _ (List.take_subset _ _ hq))
  have hfiltered : ∀ (pred : Str → Bool) (q : Str),
      q ∈ (files.filter pred).take 5 → q ∈ files := by
    intro pred q hq
    exact List.mem_of_mem_filter (List.take_subset _ _ hq)
  constructor
  · unfold selectRelevantFiles
    dsimp only
    rw [List.length_take]
    exact inf_le_left
  · dsimp only [selectRelevantFiles] at hp
    have hp2 := List.take_subset 5 _ hp
    clear hp
    split at hp2 <;>
      [skip; skip] <;>
      · split at hp2
        case isTrue =>
          rcases mem_foldl_conditional_append _ files _ p hp2 with h1 | h1
          · split at h1
            case isTrue hpkg =>
              rcases List.mem_append.mp h1 with h2 | h2
              · first
                | exact hsorted _ _ _ h2
                | exact hfiltered _ _ h2
              · have hc : files.contains "package.json".data = true :=
                  (Bool.and_eq_true _ _).mp hpkg |>.2
                simp only [List.mem_singleton] at h2
                subst h2
                exact List.mem_of_elem_eq_true hc
            case isFalse =>
              first
              | exact hsorted _ _ _ h1
              | exact hfiltered _ _ h1
          · exact h1
        case isFalse =>
          first
          | exact hsorted _ _ _ hp2
          | exact hfiltered _ _ hp2

/-- Witness for C1 at a concrete file list and question. -/
theorem selectRelevantFiles_card_and_subset_witness :
    (selectRelevantFiles ["package.json".data, "src/lib/github.ts".data]
        "how does the github api work".data).length ≤ 5 ∧
      "src/lib/github.ts".data ∈
        ["package.json".data, "src/lib/github.ts".data] :=
  selectRelevantFiles_card_and_subset
    ["package.json".data, "src/lib/github.ts".data]
    "how does the github api work".data
    "src/lib/github.ts".data (by decide)

/-!
## Tree builder (`buildHierarchy`)

Two call sites build a hierarchy from the flat `fileStructure` list:
  * `renderStructureTree` in part_005 lines 412–460 (conditional leaf push,
    directory leaves get `children: []`), modelled by `cv = false`;
  * the `CodeVisualization` effect in part_005 lines 1542–1578 (unconditional
    leaf push, leaves carry no `children` field), modelled by `cv = true`.
Both walk `pathParts = (file.path || file.name).split('/')`, reusing an
existing directory child of the same name at each level, creating missing
folders with `path = pathParts.slice(0, i + 1).join('/')`, then append a leaf
for the final segment.  A JS `push` on an `undefined` `children` array is a
silent no-op, modelled by `Option.map` on the `children` field.
-/

/-- File-entry type tag (`type: 'file' | 'dir'` from the GitHub listing). -/
inductive EType where
  | file
  | dir
deriving DecidableEq

/-- One row of the flat `fileStructure` list. -/
structure Entry where
  path : Str
  name : Str
  type : EType
deriving DecidableEq

/-- JavaScript `file.path || file.name` (a missing or empty `path` falls back
to `name`). -/
def entryKey (e : Entry) : Str := if e.path = [] then e.name else e.path

/-- Hierarchy node: `{ path, name, type, children }`; `children = none` models
a JS object whose `children` property is `undefined`. -/
inductive Node where
  | mk (path name : Str) (type : EType) (children : Option (List Node))

def Node.path : Node → Str
  | .mk p _ _ _ => p

def Node.name : Node → Str
  | .mk _ nm _ _ => nm

def Node.type : Node → EType
  | .mk _ _ ty _ => ty

def Node.children : Node → Option (List Node)
  | .mk _ _ _ ch => ch

/-- The children actually reachable in the tree (an `undefined` children
array holds nothing). -/
def childrenOf (n : Node) : List Node := n.children.getD []

/-- The leaf pushed for the final path segment.  `cv = true`
(CodeVisualization): no `children` property.  `cv = false`
(renderStructureTree): `children: file.type === 'dir' ? [] : undefined`. -/
def mkLeaf (cv : Bool) (e : Entry) (nm : Str) : Node :=
  Node.mk (entryKey e) nm e.type
    (if cv then none else
      match e.type with
      | EType.dir => some []
      | EType.file => none)

/-- Index of the first child matching
`child.type === 'dir' && child.name === folderName` (the `children.find`
call), if any. -/
def findDirIdx (seg : Str) : List Node → Option Nat
  | [] => none
  | c :: cs =>
    if c.type = EType.dir ∧ c.name = seg then some 0
    else (findDirIdx seg cs).map (· + 1)

/-- The per-entry loop body of `buildHierarchy`: `rest` is the part of
`pathParts` not yet walked, `consumed` the prefix already walked (so the JS
condition `pathParts.length > 1` at the leaf step is `consumed ≠ []`).  When a
directory child of the wanted name exists, the walk continues inside it
(in-place mutation, modelled by `List.set` at its index); otherwise the missing
folder is created, pushed, and the walk continues inside the new folder. -/
def insertGo (cv : Bool) (e : Entry) : List Str → List Str → Node → Node
  | [], _, node => node
  | [seg], consumed, node =>
    if cv = true ∨ consumed ≠ [] ∨ e.type = EType.file then
      match node with
      | .mk p nm ty ch => Node.mk p nm ty (ch.map (fun cs => cs ++ [mkLeaf cv e seg]))
    else node
  | seg :: s2 :: r2, consumed, node =>
    match node with
    | .mk p nm ty ch =>
      match ch with
      | none => Node.mk p nm ty none
      | some cs =>
        match findDirIdx seg cs with
        | some i =>
          Node.mk p nm ty (some (cs.set i
            (insertGo cv e (s2 :: r2) (consumed ++ [seg])
              (cs.getD i (Node.mk [] [] EType.dir none)))))
        | none =>
          Node.mk p nm ty (some (cs ++
            [insertGo cv e (s2 :: r2) (consumed ++ [seg])
              (Node.mk (joinSlash (consumed ++ [seg])) seg EType.dir (some []))]))

/-- Processing one entry of the `fileStructure.forEach` loop. -/
def insertEntry (cv : Bool) (t : Node) (e : Entry) : Node :=
  insertGo cv e (splitSlash (entryKey e)) [] t

/-- `buildHierarchy`: fold the flat entry list into the root node
`{ path: '', name: repoName, type: 'dir', children: [] }`. -/
def buildHierarchy (cv : Bool) (repoName : Str) (entries : List Entry) : Node :=
  entries.foldl (insertEntry cv) (Node.mk [] repoName EType.dir (some []))

theorem insertGo_fields (cv : Bool) (e : Entry) (rest consumed : List Str)
    (node : Node) :
    (insertGo cv e rest consumed node).path = node.path ∧
      (insertGo cv e rest consumed node).name = node.name ∧
      (insertGo cv e rest consumed node).type = node.type := by
  cases node with
  | mk p nm ty ch =>
    match rest with
    | [] => simp [insertGo]
    | [seg] =>
      simp only [insertGo]
      split <;> simp [Node.path, Node.name, Node.type]
    | seg :: s2 :: r2 =>
      cases ch with
      | none => simp [insertGo, Node.path, Node.name, Node.type]
      | some cs =>
        simp only [insertGo]
        cases hud : findDirIdx seg cs with
        | none => simp [Node.path, Node.name, Node.type]
        | some i => simp [Node.path, Node.name, Node.type]

theorem findDirIdx_some_spec (seg : Str) :
    ∀ (cs : List Node) (i : Nat), findDirIdx seg cs = some i →
      ∃ pre c post, cs = pre ++ c :: post ∧ pre.length = i ∧
        c.type = EType.dir ∧ c.name = seg ∧
        ∀ d ∈ pre, ¬(d.type = EType.dir ∧ d.name = seg) := by
  intro cs
  induction cs with
  | nil => intro i h; simp [findDirIdx] at h
  | cons c cs ih =>
    intro i h
    simp only [findDirIdx] at h
    split at h
    case isTrue hc =>
      simp only [Option.some.injEq] at h
      exact ⟨[], c, cs, by simp, by simp [h], hc.1, hc.2, by simp⟩
    case isFalse hc =>
      cases hrec : findDirIdx seg cs with
      | none => rw [hrec] at h; exact absurd h (by simp)
      | some j =>
        rw [hrec] at h
        simp only [Option.map_some', Option.some.injEq] at h
        obtain ⟨pre, d, post, h1, h2, h3, h4, h5⟩ := ih j hrec
        refine ⟨c :: pre, d, post, by simp [h1], by simp [h2, ← h], h3, h4, ?_⟩
        intro x hx
        rcases List.mem_cons.mp hx with h6 | h6
        · subst h6; exact hc
        · exact h5 x h6

theorem findDirIdx_none_spec (seg : Str) :
    ∀ (cs : List Node), findDirIdx seg cs = none →
      ∀ c ∈ cs, ¬(c.type = EType.dir ∧ c.name = seg) := by
  intro cs
  induction cs with
  | nil => intro _ c hc; simp at hc
  | cons c cs ih =>
    intro h x hx
    simp only [findDirIdx] at h
    split at h
    · exact absurd h (by simp)
    case isFalse hc =>
      cases hrec : findDirIdx seg cs with
      | some j => rw [hrec] at h; exact absurd h (by simp)
      | none =>
        rcases List.mem_cons.mp hx with h6 | h6
        · subst h6; exact hc
        · exact ih hrec x h6

theorem set_at_split (pre post : List Node) (c x : Node) :
    (pre ++ c :: post).set pre.length x = pre ++ x :: post := by
  induction pre with
  | nil => rfl
  | cons a pre ih => simp [List.set, ih]

theorem getD_at_split (pre post : List Node) (c d : Node) :
    (pre ++ c :: post).getD pre.length d = c := by
  induction pre with
  | nil => rfl
  | cons a pre ih => simpa [List.getD] using ih

/-- Structural path invariant: a node sitting at ancestor-name chain `names`
(below the root) has `path = joinSlash names` whenever its `path` is
non-empty, recursively for all children. -/
inductive PathOk : List Str → Node → Prop where
  | mk (names : List Str) (p nm : Str) (ty : EType) (ch : Option (List Node)) :
      (p ≠ [] → p = joinSlash names) →
      (∀ c ∈ ch.getD [], PathOk (names ++ [c.name]) c) →
      PathOk names (Node.mk p nm ty ch)

theorem PathOk.path_eq {names : List Str} {n : Node} (h : PathOk names n)
    (hne : n.path ≠ []) : n.path = joinSlash names := by
  cases h with
  | mk _ p nm ty ch h1 h2 => exact h1 hne

theorem PathOk.child_ok {names : List Str} {n c : Node} (h : PathOk names n)
    (hc : c ∈ childrenOf n) : PathOk (names ++ [c.name]) c := by
  cases h with
  | mk _ p nm ty ch h1 h2 => exact h2 c hc

theorem insertGo_pathOk (cv : Bool) (e : Entry) :
    ∀ (rest consumed : List Str) (node : Node),
      PathOk consumed node →
      joinSlash (consumed ++ rest) = entryKey e →
      PathOk consumed (insertGo cv e rest consumed node) := by
  intro rest
  induction rest with
  | nil => intro consumed node h _; simpa [insertGo] using h
  | cons seg rest' ih =>
    intro consumed node h hkey
    cases node with
    | mk p nm ty ch =>
      cases rest' with
      | nil =>
        simp only [insertGo]
        split
        case isFalse => exact h
        case isTrue =>
          cases h with
          | mk _ _ _ _ _ h1 h2 =>
            refine PathOk.mk consumed p nm ty _ h1 ?_
            intro c hc
            cases ch with
            | none => simp at hc
            | some cs =>
              simp only [Option.map, Option.getD_some] at hc
              rcases List.mem_append.mp hc with h3 | h3
              · exact h2 c h3
              · simp only [List.mem_singleton] at h3
                subst h3
                refine PathOk.mk _ _ _ _ _ ?_ ?_
                · intro _
                  rw [← hkey]
                  rfl
                · intro c hc2
                  rcases cv with _ | _ <;> rcases he : e.type with _ | _ <;>
                    simp [he] at hc2
      | cons s2 r2 =>
        cases ch with
        | none => simpa [insertGo] using h
        | some cs =>
          simp only [insertGo]
          cases hud : findDirIdx seg cs with
          | some i =>
            obtain ⟨pre, c, post, hcs, hlen, hcty, hcnm, _⟩ :=
              findDirIdx_some_spec _ _ _ hud
            subst hcs
            subst hlen
            dsimp only
            rw [getD_at_split, set_at_split]
            cases h with
            | mk _ _ _ _ _ h1 h2 =>
              refine PathOk.mk consumed p nm ty _ h1 ?_
              intro d hd
              simp only [Option.getD_some] at hd
              rcases List.mem_append.mp hd with h3 | h3
              · exact h2 d (List.mem_append.mpr (Or.inl h3))
              · rcases List.mem_cons.mp h3 with h4 | h4
                · subst h4
                  have hname : (insertGo cv e (s2 :: r2) (consumed ++ [seg]) c).name = c.name :=
                    (insertGo_fields cv e _ _ c).2.1
                  rw [hname, hcnm]
                  have hcok : PathOk (consumed ++ [seg]) c := by
                    have := h2 c (List.mem_append.mpr (Or.inr (List.mem_cons_self _ _)))
                    rwa [hcnm] at this
                  refine ih (consumed ++ [seg]) c hcok ?_
                  rw [← hkey]
                  simp
                · exact h2 d (List.mem_append.mpr (Or.inr (List.mem_cons_of_mem _ h4)))
          | none =>
            cases h with
            | mk _ _ _ _ _ h1 h2 =>
              refine PathOk.mk consumed p nm ty _ h1 ?_
              intro d hd
              simp only [Option.getD_some] at hd
              rcases List.mem_append.mp hd with h3 | h3
              · exact h2 d h3
              · simp only [List.mem_singleton] at h3
                subst h3
                have hname :
                    (insertGo cv e (s2 :: r2) (consumed ++ [seg])
                      (Node.mk (joinSlash (consumed ++ [seg])) seg EType.dir (some []))).name = seg :=
                  (insertGo_fields cv e _ _ _).2.1
                rw [hname]
                refine ih (consumed ++ [seg]) _ ?_ ?_
                · refine PathOk.mk _ _ _ _ _ (fun _ => rfl) ?_
                  intro c hc
                  simp at hc
                · rw [← hkey]
                  simp

theorem buildHierarchy_pathOk (cv : Bool) (repoName : Str)
    (entries : List Entry) : PathOk [] (buildHierarchy cv repoName entries) := by
  have hroot : PathOk [] (Node.mk [] repoName EType.dir (some [])) := by
    refine PathOk.mk _ _ _ _ _ (fun h => absurd rfl h) ?_
    intro c hc
    simp at hc
  unfold buildHierarchy
  generalize Node.mk [] repoName EType.dir (some []) = t at hroot ⊢
  induction entries generalizing t with
  | nil => simpa using hroot
  | cons e es ih =>
    simp only [List.foldl_cons]
    refine ih _ ?_
    unfold insertEntry
    refine insertGo_pathOk cv e _ [] t hroot ?_
    simp [joinSlash_splitSlash]

/-- Reachability in the tree: `ReachFrom t names n` means that `n` is reached
from `t` through a chain of children whose names are `names`, in order. -/
inductive ReachFrom : Node → List Str → Node → Prop where
  | refl (n : Node) : ReachFrom n [] n
  | step (t c : Node) (names : List Str) (n : Node) :
      c ∈ childrenOf t → ReachFrom c names n → ReachFrom t (c.name :: names) n

theorem pathOk_reach (t : Node) (names : List Str) (n : Node)
    (hr : ReachFrom t names n) :
    ∀ (pre : List Str), PathOk pre t → n.path ≠ [] →
      n.path = joinSlash (pre ++ names) := by
  induction hr with
  | refl m => intro pre h hne; simpa using h.path_eq hne
  | step t c names n hc _ ih =>
    intro pre h hne
    have := ih (pre ++ [c.name]) (h.child_ok hc) hne
    simpa using this

/-- Claim C2: in the tree `buildHierarchy` produces (for either call-site
variant `cv`), every node whose `path` is non-empty has `path` equal to the
slash-join of the names of its ancestors below the root followed by its own
name — in particular every leaf's computed path equals `file.path || file.name`
of the entry it was pushed for, which is the leaf's stored `path`. -/
theorem buildHierarchy_path_invariant (cv : Bool) (repoName : Str)
    (entries : List Entry) (names : List Str) (n : Node)
    (h1 : ReachFrom (buildHierarchy cv repoName entries) names n)
    (h2 : n.path ≠ []) : n.path = joinSlash names := by
  have h := pathOk_reach _ names n h1 [] (buildHierarchy_pathOk cv repoName entries) h2
  simpa using h

/-- Witness for C2: in the tree built from the single entry `a.txt`, the leaf
reached through the chain `["a.txt"]` has path `joinSlash ["a.txt"]`. -/
theorem buildHierarchy_path_invariant_witness :
    (Node.mk "a.txt".data "a.txt".data EType.file none).path =
      joinSlash ["a.txt".data] :=
  buildHierarchy_path_invariant false "repo".data
    [⟨"a.txt".data, "a.txt".data, EType.file⟩] ["a.txt".data]
    (Node.mk "a.txt".data "a.txt".data EType.file none)
    (ReachFrom.step
      (buildHierarchy false "repo".data
        [⟨"a.txt".data, "a.txt".data, EType.file⟩])
      (Node.mk "a.txt".data "a.txt".data EType.file none) []
      (Node.mk "a.txt".data "a.txt".data EType.file none)
      (List.mem_singleton_self _)
      (ReachFrom.refl (Node.mk "a.txt".data "a.txt".data EType.file none)))
    (by decide)

/-!
## Duplicate-children analysis (claim C5) and root-attachment (claim C6)
-/

/-- Does `t` have a direct child with the given name, type and path? -/
def hasChildNPT (t : Node) (nm : Str) (ty : EType) (p : Str) : Bool :=
  (childrenOf t).any fun c =>
    decide (c.name = nm) && decide (c.type = ty) && decide (c.path = p)

/-- Invariant used for the duplicate-freeness proof: relative to the set `K`
of entry keys already processed, every node at chain `names` has
duplicate-free `(name, type)` child keys, and every file-type child was pushed
for a processed entry whose key is the slash-join of its chain. -/
inductive DupOk (K : List Str) : List Str → Node → Prop where
  | mk (names : List Str) (p nm : Str) (ty : EType) (ch : Option (List Node)) :
      ((ch.getD []).map fun c => (c.name, c.type)).Nodup →
      (∀ c ∈ ch.getD [], c.type = EType.file → joinSlash (names ++ [c.name]) ∈ K) →
      (∀ c ∈ ch.getD [], DupOk K (names ++ [c.name]) c) →
      DupOk K names (Node.mk p nm ty ch)

theorem DupOk.keys_nodup {K : List Str} {names : List Str} {n : Node}
    (h : DupOk K names n) :
    ((childrenOf n).map fun c => (c.name, c.type)).Nodup := by
  cases h with
  | mk _ p nm ty ch h1 h2 h3 => exact h1

theorem DupOk.child_dup {K : List Str} {names : List Str} {n c : Node}
    (h : DupOk K names n) (hc : c ∈ childrenOf n) :
    DupOk K (names ++ [c.name]) c := by
  cases h with
  | mk _ p nm ty ch h1 h2 h3 => exact h3 c hc

theorem DupOk.filekey {K : List Str} {names : List Str} {n c : Node}
    (h : DupOk K names n) (hc : c ∈ childrenOf n) (hf : c.type = EType.file) :
    joinSlash (names ++ [c.name]) ∈ K := by
  cases h with
  | mk _ p nm ty ch h1 h2 h3 => exact h2 c hc hf

theorem DupOk.weaken {K K' : List Str} (hK : ∀ k ∈ K, k ∈ K') :
    ∀ {names : List Str} {n : Node}, DupOk K names n → DupOk K' names n := by
  intro names n h
  induction h with
  | mk names p nm ty ch h1 h2 h3 ih =>
    exact DupOk.mk names p nm ty ch h1 (fun c hc hf => hK _ (h2 c hc hf)) ih


theorem mkLeaf_file_eq (cv : Bool) (e : Entry) (seg : Str)
    (he : e.type = EType.file) :
    mkLeaf cv e seg = Node.mk (entryKey e) seg e.type none := by
  cases cv <;> simp [mkLeaf, he]

theorem dupOk_leaf (cv : Bool) (e : Entry) (seg : Str)
    (he : e.type = EType.file) (K : List Str) (names : List Str) :
    DupOk K names (mkLeaf cv e seg) := by
  rw [mkLeaf_file_eq cv e seg he]
  exact DupOk.mk names _ _ _ none (by simp) (by simp) (by simp)

theorem insertGo_dupOk (cv : Bool) (e : Entry) (he : e.type = EType.file)
    (K : List Str) :
    ∀ (rest consumed : List Str) (node : Node),
      DupOk K consumed node →
      joinSlash (consumed ++ rest) = entryKey e →
      entryKey e ∉ K →
      DupOk (K ++ [entryKey e]) consumed (insertGo cv e rest consumed node) := by
  have hKsub : ∀ k ∈ K, k ∈ K ++ [entryKey e] := by
    intro k hk
    exact List.mem_append.mpr (Or.inl hk)
  intro rest
  induction rest with
  | nil =>
    intro consumed node h _ _
    simpa [insertGo] using h.weaken hKsub
  | cons seg rest' ih =>
    intro consumed node h hkey hnotin
    cases node with
    | mk p nm ty ch =>
      cases rest' with
      | nil =>
        simp only [insertGo]
        split
        case isFalse hcond =>
          exact absurd (Or.inr (Or.inr he)) hcond
        case isTrue =>
          cases h with
          | mk _ _ _ _ _ h1 h2 h3 =>
            cases ch with
            | none =>
              exact DupOk.mk consumed p nm ty none (by simp) (by simp) (by simp)
            | some cs =>
              simp only [Option.getD_some] at h1 h2 h3
              have hkeyleaf : joinSlash (consumed ++ [seg]) = entryKey e := hkey
              have hleafname : (mkLeaf cv e seg).name = seg := by
                rw [mkLeaf_file_eq cv e seg he, Node.name]
              have hleaftype : (mkLeaf cv e seg).type = EType.file := by
                rw [mkLeaf_file_eq cv e seg he, Node.type, he]
              have hnotkeys : ((mkLeaf cv e seg).name, (mkLeaf cv e seg).type) ∉
                  cs.map fun c => (c.name, c.type) := by
                intro hmem
                rcases List.mem_map.mp hmem with ⟨c, hc, hcEq⟩
                have hname : c.name = seg := by
                  have := congrArg Prod.fst hcEq
                  simp only at this
                  rw [this, hleafname]
                have htype : c.type = EType.file := by
                  have := congrArg Prod.snd hcEq
                  simp only at this
                  rw [this, hleaftype]
                have := h2 c hc htype
                rw [hname, hkeyleaf] at this
                exact hnotin this
              refine DupOk.mk consumed p nm ty
                (Option.map (fun cs => cs ++ [mkLeaf cv e seg]) (some cs)) ?_ ?_ ?_
              · simp only [Option.map, Option.getD_some, List.map_append,
                  List.map_cons, List.map_nil]
                rw [List.nodup_append]
                refine ⟨h1, List.nodup_singleton _, ?_⟩
                intro k hk
                simp only [List.mem_singleton]
                intro hkEq
                exact hnotkeys (hkEq ▸ hk)
              · intro c hc hf
                simp only [Option.map, Option.getD_some] at hc
                rcases List.mem_append.mp hc with h4 | h4
                · exact List.mem_append.mpr (Or.inl (h2 c h4 hf))
                · simp only [List.mem_singleton] at h4
                  subst h4
                  rw [hleafname, hkeyleaf]
                  exact List.mem_append.mpr (Or.inr (List.mem_singleton_self _))
              · intro c hc
                simp only [Option.map, Option.getD_some] at hc
                rcases List.mem_append.mp hc with h4 | h4
                · exact (h3 c h4).weaken hKsub
                · simp only [List.mem_singleton] at h4
                  subst h4
                  exact dupOk_leaf cv e seg he _ _
      | cons s2 r2 =>
        cases ch with
        | none =>
          simp only [insertGo]
          exact (by simpa using h.weaken hKsub : DupOk (K ++ [entryKey e]) consumed (Node.mk p nm ty none))
        | some cs =>
          simp only [insertGo]
          cases hud : findDirIdx seg cs with
          | some i =>
            obtain ⟨pre, c, post, hcs, hlen, hcty, hcnm, _⟩ :=
              findDirIdx_some_spec _ _ _ hud
            subst hcs
            subst hlen
            dsimp only
            rw [getD_at_split, set_at_split]
            cases h with
            | mk _ _ _ _ _ h1 h2 h3 =>
              simp only [Option.getD_some] at h1 h2 h3
              have hcok : DupOk K (consumed ++ [seg]) c := by
                have := h3 c (List.mem_append.mpr (Or.inr (List.mem_cons_self _ _)))
                rwa [hcnm] at this
              have hnew := ih (consumed ++ [seg]) c hcok
                (by rw [← hkey]; simp) hnotin
              have hfields := insertGo_fields cv e (s2 :: r2) (consumed ++ [seg]) c
              refine DupOk.mk consumed p nm ty (some _) ?_ ?_ ?_
              · simp only [Option.getD_some, List.map_append, List.map_cons]
                rw [hfields.2.1, hfields.2.2]
                simpa only [List.map_append, List.map_cons] using h1
              · intro d hd hf
                simp only [Option.getD_some] at hd
                rcases List.mem_append.mp hd with h4 | h4
                · exact List.mem_append.mpr (Or.inl
                    (h2 d (List.mem_append.mpr (Or.inl h4)) hf))
                · rcases List.mem_cons.mp h4 with h5 | h5
                  · subst h5
                    rw [hfields.2.2, hcty] at hf
                    exact absurd hf (by simp)
                  · exact List.mem_append.mpr (Or.inl
                      (h2 d (List.mem_append.mpr (Or.inr (List.mem_cons_of_mem _ h5))) hf))
              · intro d hd
                simp only [Option.getD_some] at hd
                rcases List.mem_append.mp hd with h4 | h4
                · exact ((h3 d (List.mem_append.mpr (Or.inl h4))).weaken hKsub)
                · rcases List.mem_cons.mp h4 with h5 | h5
                  · subst h5
                    rw [hfields.2.1, hcnm]
                    exact hnew
                  · exact ((h3 d (List.mem_append.mpr
                      (Or.inr (List.mem_cons_of_mem _ h5)))).weaken hKsub)
          | none =>
            have hnone := findDirIdx_none_spec seg cs hud
            cases h with
            | mk _ _ _ _ _ h1 h2 h3 =>
              simp only [Option.getD_some] at h1 h2 h3
              have hfolder : DupOk K (consumed ++ [seg])
                  (Node.mk (joinSlash (consumed ++ [seg])) seg EType.dir (some [])) :=
                DupOk.mk _ _ _ _ (some []) (by simp) (by simp) (by simp)
              have hnew := ih (consumed ++ [seg]) _ hfolder
                (by rw [← hkey]; simp) hnotin
              have hfields := insertGo_fields cv e (s2 :: r2) (consumed ++ [seg])
                (Node.mk (joinSlash (consumed ++ [seg])) seg EType.dir (some []))
              refine DupOk.mk consumed p nm ty (some _) ?_ ?_ ?_
              · simp only [Option.getD_some, List.map_append, List.map_cons,
                  List.map_nil]
                rw [hfields.2.1, hfields.2.2]
                simp only [Node.name, Node.type]
                rw [List.nodup_append]
                refine ⟨h1, by simp, ?_⟩
                intro k hk
                simp only [List.mem_singleton]
                intro hkEq
                rcases List.mem_map.mp hk with ⟨d, hd, hdEq⟩
                rw [hkEq] at hdEq
                have hdnm : d.name = seg := congrArg Prod.fst hdEq
                have hdty : d.type = EType.dir := congrArg Prod.snd hdEq
                exact hnone d hd ⟨hdty, hdnm⟩
              · intro d hd hf
                simp only [Option.getD_some] at hd
                rcases List.mem_append.mp hd with h4 | h4
                · exact List.mem_append.mpr (Or.inl (h2 d h4 hf))
                · simp only [List.mem_singleton] at h4
                  subst h4
                  rw [hfields.2.2, Node.type] at hf
                  exact absurd hf (by simp)
              · intro d hd
                simp only [Option.getD_some] at hd
                rcases List.mem_append.mp hd with h4 | h4
                · exact (h3 d h4).weaken hKsub
                · simp only [List.mem_singleton] at h4
                  subst h4
                  rw [hfields.2.1, Node.name]
                  exact hnew

theorem foldl_dupOk (cv : Bool) :
    ∀ (entries : List Entry) (K : List Str) (t : Node),
      (∀ e ∈ entries, e.type = EType.file) →
      (K ++ entries.map entryKey).Nodup →
      DupOk K [] t →
      DupOk (K ++ entries.map entryKey) [] (entries.foldl (insertEntry cv) t) := by
  intro entries
  induction entries with
  | nil => intro K t _ _ h; simpa using h
  | cons e es ih =>
    intro K t hfile hnd h
    simp only [List.foldl_cons, List.map_cons]
    have hkey : entryKey e ∉ K := by
      intro hmem
      rw [List.nodup_append] at hnd
      exact hnd.2.2 hmem (List.mem_cons_self _ _)
    have ht2 : DupOk (K ++ [entryKey e]) [] (insertEntry cv t e) := by
      unfold insertEntry
      exact insertGo_dupOk cv e (hfile e (List.mem_cons_self _ _)) K
        (splitSlash (entryKey e)) [] t h (by simp [joinSlash_splitSlash]) hkey
    have hres := ih (K ++ [entryKey e]) _
      (fun x hx => hfile x (List.mem_cons_of_mem _ hx))
      (by simpa [List.append_assoc] using hnd) ht2
    simpa [List.append_assoc] using hres

theorem dupOk_reach (t : Node) (names : List Str) (n : Node)
    (hr : ReachFrom t names n) :
    ∀ (K : List Str) (pre : List Str), DupOk K pre t →
      ((childrenOf n).map fun c => (c.name, c.type)).Nodup := by
  induction hr with
  | refl m => intro K pre h; exact h.keys_nodup
  | step t c names n hc _ ih => intro K pre h; exact ih K _ (h.child_dup hc)

/-- Counterexample to claim C5 as stated: with the two distinct-path entries
`src/app/x.ts` (file) and `src/app` (dir), in that order, the built tree's
`src` node has two children both named `app` and both of type dir (the walked
folder and the pushed leaf). -/
theorem buildHierarchy_dup_children_counterexample :
    ¬ (∀ (cv : Bool) (repoName : Str) (entries : List Entry),
        (entries.map Entry.path).Nodup →
        ∀ (names : List Str) (n : Node),
          ReachFrom (buildHierarchy cv repoName entries) names n →
          ((childrenOf n).map fun c => (c.name, c.type)).Nodup) := by
  intro hclaim
  have h := hclaim false "repo".data
    [⟨"src/app/x.ts".data, "x.ts".data, EType.file⟩,
     ⟨"src/app".data, "app".data, EType.dir⟩]
    (by decide) ["src".data]
    (Node.mk "src".data "src".data EType.dir (some
      [Node.mk "src/app".data "app".data EType.dir (some
        [Node.mk "src/app/x.ts".data "x.ts".data EType.file none]),
       Node.mk "src/app".data "app".data EType.dir (some [])]))
    (ReachFrom.step
      (buildHierarchy false "repo".data
        [⟨"src/app/x.ts".data, "x.ts".data, EType.file⟩,
         ⟨"src/app".data, "app".data, EType.dir⟩])
      (Node.mk "src".data "src".data EType.dir (some
        [Node.mk "src/app".data "app".data EType.dir (some
          [Node.mk "src/app/x.ts".data "x.ts".data EType.file none]),
         Node.mk "src/app".data "app".data EType.dir (some [])])) []
      (Node.mk "src".data "src".data EType.dir (some
        [Node.mk "src/app".data "app".data EType.dir (some
          [Node.mk "src/app/x.ts".data "x.ts".data EType.file none]),
         Node.mk "src/app".data "app".data EType.dir (some [])]))
      (List.mem_singleton_self _)
      (ReachFrom.refl
        (Node.mk "src".data "src".data EType.dir (some
          [Node.mk "src/app".data "app".data EType.dir (some
            [Node.mk "src/app/x.ts".data "x.ts".data EType.file none]),
           Node.mk "src/app".data "app".data EType.dir (some [])]))))
  exact absurd h (by decide)

/-- Claim C5 (amended): for entry sequences containing only file-type entries
with pairwise-distinct keys (`path`, falling back to `name` when empty), no
node of the built tree — either variant — has two children sharing the same
name and the same type. -/
theorem buildHierarchy_no_dup_children (cv : Bool) (repoName : Str)
    (entries : List Entry)
    (hfile : ∀ e ∈ entries, e.type = EType.file)
    (hnd : (entries.map entryKey).Nodup)
    (names : List Str) (n : Node)
    (hr : ReachFrom (buildHierarchy cv repoName entries) names n) :
    ((childrenOf n).map fun c => (c.name, c.type)).Nodup := by
  have hroot : DupOk [] [] (Node.mk [] repoName EType.dir (some [])) :=
    DupOk.mk _ _ _ _ (some []) (by simp) (by simp) (by simp)
  have hd := foldl_dupOk cv entries [] _ hfile (by simpa using hnd) hroot
  exact dupOk_reach _ names n hr _ [] (by simpa using hd)

/-- Witness for the amended C5 at a concrete two-file structure. -/
theorem buildHierarchy_no_dup_children_witness :
    ((childrenOf (buildHierarchy false "repo".data
      [⟨"a.txt".data, "a.txt".data, EType.file⟩,
       ⟨"src/b.ts".data, "b.ts".data, EType.file⟩])).map
        fun c => (c.name, c.type)).Nodup :=
  buildHierarchy_no_dup_children false "repo".data
    [⟨"a.txt".data, "a.txt".data, EType.file⟩,
     ⟨"src/b.ts".data, "b.ts".data, EType.file⟩]
    (by decide) (by decide) []
    (buildHierarchy false "repo".data
      [⟨"a.txt".data, "a.txt".data, EType.file⟩,
       ⟨"src/b.ts".data, "b.ts".data, EType.file⟩])
    (ReachFrom.refl _)

theorem insertGo_children_isSome (cv : Bool) (e : Entry)
    (rest consumed : List Str) (node : Node)
    (h : node.children.isSome = true) :
    (insertGo cv e rest consumed node).children.isSome = true := by
  cases node with
  | mk p nm ty ch =>
    cases ch with
    | none => simp [Node.children] at h
    | some cs =>
      match rest with
      | [] => simpa [insertGo, Node.children] using h
      | [seg] =>
        simp only [insertGo]
        split <;> simp [Node.children]
      | seg :: s2 :: r2 =>
        simp only [insertGo]
        cases hud : findDirIdx seg cs with
        | none => simp [Node.children]
        | some i => simp [Node.children]

theorem hasChildNPT_exists (t : Node) (nm : Str) (ty : EType) (p : Str) :
    hasChildNPT t nm ty p = true ↔
      ∃ c ∈ childrenOf t, c.name = nm ∧ c.type = ty ∧ c.path = p := by
  simp [hasChildNPT, List.any_eq_true, and_assoc]

theorem insertGo_preserves_child (cv : Bool) (e : Entry)
    (rest consumed : List Str) (t : Node) (nm : Str) (ty : EType) (p : Str)
    (h : hasChildNPT t nm ty p = true) :
    hasChildNPT (insertGo cv e rest consumed t) nm ty p = true := by
  rw [hasChildNPT_exists] at h ⊢
  obtain ⟨c, hc, hcp⟩ := h
  cases t with
  | mk tp tnm tty ch =>
    cases ch with
    | none => simp [childrenOf, Node.children] at hc
    | some cs =>
      simp only [childrenOf, Node.children, Option.getD_some] at hc
      match rest with
      | [] => exact ⟨c, by simpa [insertGo, childrenOf, Node.children] using hc, hcp⟩
      | [seg] =>
        simp only [insertGo]
        split
        · refine ⟨c, ?_, hcp⟩
          simp only [childrenOf, Node.children, Option.map, Option.getD_some]
          exact List.mem_append.mpr (Or.inl hc)
        · exact ⟨c, by simpa [childrenOf, Node.children] using hc, hcp⟩
      | seg :: s2 :: r2 =>
        simp only [insertGo]
        cases hud : findDirIdx seg cs with
        | none =>
          refine ⟨c, ?_, hcp⟩
          simp only [childrenOf, Node.children, Option.getD_some]
          exact List.mem_append.mpr (Or.inl hc)
        | some i =>
          obtain ⟨pre, d, post, hcs, hlen, _, _, _⟩ :=
            findDirIdx_some_spec _ _ _ hud
          subst hcs
          subst hlen
          dsimp only
          rw [getD_at_split, set_at_split]
          simp only [childrenOf, Node.children, Option.getD_some]
          rcases List.mem_append.mp hc with h1 | h1
          · exact ⟨c, List.mem_append.mpr (Or.inl h1), hcp⟩
          · rcases List.mem_cons.mp h1 with h2 | h2
            · subst h2
              have hf := insertGo_fields cv e (s2 :: r2) (consumed ++ [seg]) c
              refine ⟨insertGo cv e (s2 :: r2) (consumed ++ [seg]) c,
                List.mem_append.mpr (Or.inr (List.mem_cons_self _ _)), ?_⟩
              rw [hf.2.1, hf.2.2, hf.1]
              exact hcp
            · exact ⟨c, List.mem_append.mpr (Or.inr (List.mem_cons_of_mem _ h2)), hcp⟩

theorem insertEntry_root_child (cv : Bool) (t : Node) (e : Entry)
    (hs : '/' ∉ entryKey e) (hcond : cv = true ∨ e.type = EType.file)
    (hch : t.children.isSome = true) :
    hasChildNPT (insertEntry cv t e) (entryKey e) e.type (entryKey e) = true := by
  unfold insertEntry
  rw [splitSlash_no_slash _ hs]
  cases t with
  | mk p nm ty ch =>
    cases ch with
    | none => simp [Node.children] at hch
    | some cs =>
      simp only [insertGo]
      rw [if_pos (hcond.elim Or.inl (fun h => Or.inr (Or.inr h)))]
      rw [hasChildNPT_exists]
      refine ⟨mkLeaf cv e (entryKey e), ?_, ?_, ?_, ?_⟩
      · simp only [childrenOf, Node.children, Option.map, Option.getD_some]
        exact List.mem_append.mpr (Or.inr (List.mem_singleton_self _))
      · cases cv <;> simp [mkLeaf, Node.name]
      · cases cv <;> simp [mkLeaf, Node.type]
      · cases cv <;> simp [mkLeaf, Node.path]

theorem foldl_preserves_child (cv : Bool) (nm : Str) (ty : EType) (p : Str) :
    ∀ (l : List Entry) (t : Node), hasChildNPT t nm ty p = true →
      hasChildNPT (l.foldl (insertEntry cv) t) nm ty p = true := by
  intro l
  induction l with
  | nil => intro t h; simpa using h
  | cons e es ih =>
    intro t h
    simp only [List.foldl_cons]
    exact ih _ (insertGo_preserves_child cv e _ _ t nm ty p h)

theorem foldl_children_isSome (cv : Bool) :
    ∀ (l : List Entry) (t : Node), t.children.isSome = true →
      ((l.foldl (insertEntry cv) t).children).isSome = true := by
  intro l
  induction l with
  | nil => intro t h; simpa using h
  | cons e es ih =>
    intro t h
    simp only [List.foldl_cons]
    exact ih _ (insertGo_children_isSome cv e _ _ t h)

/-- Counterexample to claim C6 as stated: in the `renderStructureTree` variant
(`cv = false`), a directory entry whose path has no slash is not pushed (the
guard `pathParts.length > 1 || file.type === 'file'` fails), so the root of the
tree built from the single dir entry `src` has no child at all. -/
theorem buildHierarchy_root_child_counterexample :
    ¬ (∀ (cv : Bool) (repoName : Str) (entries : List Entry) (e : Entry),
        e ∈ entries → '/' ∉ entryKey e →
        hasChildNPT (buildHierarchy cv repoName entries)
          (entryKey e) e.type (entryKey e) = true) := by
  intro hclaim
  have h := hclaim false "repo".data [⟨"src".data, "src".data, EType.dir⟩]
    ⟨"src".data, "src".data, EType.dir⟩ (List.mem_singleton_self _) (by decide)
  exact absurd h (by decide)

/-- Claim C6 (amended): an entry whose key (`path`, or `name` when the path is
empty) has no `'/'` is attached as a direct child of the root — with its key
as both name and path and its declared type — whenever it is a file entry
(either variant) or the variant is CodeVisualization (`cv = true`, whose leaf
push is unconditional).  A no-slash dir entry in the renderStructureTree
variant is not pushed. -/
theorem buildHierarchy_root_child (cv : Bool) (repoName : Str)
    (entries : List Entry) (e : Entry)
    (he : e ∈ entries) (hs : '/' ∉ entryKey e)
    (hcond : cv = true ∨ e.type = EType.file) :
    hasChildNPT (buildHierarchy cv repoName entries)
      (entryKey e) e.type (entryKey e) = true := by
  obtain ⟨l1, l2, rfl⟩ := List.append_of_mem he
  unfold buildHierarchy
  rw [List.foldl_append, List.foldl_cons]
  apply foldl_preserves_child
  apply insertEntry_root_child cv _ e hs hcond
  apply foldl_children_isSome
  simp [Node.children]

/-- Witness for the amended C6 at a concrete single-file structure. -/
theorem buildHierarchy_root_child_witness :
    hasChildNPT
      (buildHierarchy false "repo".data
        [⟨"a.txt".data, "a.txt".data, EType.file⟩])
      "a.txt".data EType.file "a.txt".data = true :=
  buildHierarchy_root_child false "repo".data
    [⟨"a.txt".data, "a.txt".data, EType.file⟩]
    ⟨"a.txt".data, "a.txt".data, EType.file⟩
    (List.mem_singleton_self _) (by decide) (Or.inr rfl)

/-!
## Prompt snippets of `queryRepoWithGemini` (claims C4 and C10)

Three branches of `queryRepoWithGemini` (part_000) interpolate a fetched
file's content into `specificFileContext`:
  * repo-wide branch, line 491:
    `${fileContent.length > 2000 ? fileContent.substring(0, 2000) + '...' : fileContent}`;
  * entry-file branch, lines 402 and 433: `${fileContent}` (no truncation);
  * specific-file branch, line 642: `${fileContent}` (no truncation).
The functions below are these three interpolation expressions.
-/

/-- Content as included by the repo-wide branch (part_000 line 491). -/
def repoWideFileSnippetContent (fileContent : Str) : Str :=
  if fileContent.length > 2000 then fileContent.take 2000 ++ "...".data
  else fileContent

/-- Content as included by the entry-file branch (part_000 lines 402, 433). -/
def entryFileSnippetContent (fileContent : Str) : Str := fileContent

/-- Content as included by the specific-file branch (part_000 line 642). -/
def specificFileSnippetContent (fileContent : Str) : Str := fileContent

/-- Counterexample to claim C4 as stated: a 2500-character file content is
included verbatim (2500 > 2000 + 3 marker characters) by the specific-file
branch, so not every branch truncates to roughly 2000 characters. -/
theorem query_truncation_counterexample :
    ¬ (∀ (content : Str),
        (repoWideFileSnippetContent content).length ≤ 2003 ∧
        (entryFileSnippetContent content).length ≤ 2003 ∧
        (specificFileSnippetContent content).length ≤ 2003) := by
  intro h
  have h3 := (h (List.replicate 2500 'a')).2.2
  unfold specificFileSnippetContent at h3
  rw [List.length_replicate] at h3
  exact absurd h3 (by decide)

/-- Claim C4 (amended): only the repo-wide branch truncates a fetched file's
content, to 2000 characters plus the `...` marker when it exceeds 2000; the
entry-file and the specific-file branches include the fetched content
verbatim, with no length cap. -/
theorem query_truncation_amended (content : Str) :
    (repoWideFileSnippetContent content).length ≤ 2003 ∧
    (2000 < content.length →
      repoWideFileSnippetContent content = content.take 2000 ++ "...".data) ∧
    entryFileSnippetContent content = content ∧
    specificFileSnippetContent content = content := by
  refine ⟨?_, ?_, rfl, rfl⟩
  · unfold repoWideFileSnippetContent
    split
    case isTrue h =>
      rw [List.length_append, List.length_take]
      have h2 : min 2000 content.length = 2000 := by omega
      rw [h2]
      decide
    case isFalse h => simpa using Nat.le_trans (Nat.le_of_not_lt h) (by decide)
  · intro h
    unfold repoWideFileSnippetContent
    rw [if_pos h]

/-- Witness for (amended) C4 at a concrete 2500-character content. -/
theorem query_truncation_amended_witness :
    (repoWideFileSnippetContent (List.replicate 2500 'a')).length ≤ 2003 ∧
    repoWideFileSnippetContent (List.replicate 2500 'a') =
      (List.replicate 2500 'a').take 2000 ++ "...".data := by
  refine ⟨(query_truncation_amended (List.replicate 2500 'a')).1, ?_⟩
  refine (query_truncation_amended (List.replicate 2500 'a')).2.1 ?_
  rw [List.length_replicate]
  decide

/-- Source part_000 line 604 (specific-file branch):
`const filesToFetch = requestedFilePaths.slice(0, 3)`. -/
def filesToFetch (requestedFilePaths : List Str) : List Str :=
  requestedFilePaths.take 3

/-- The `for (const requestedFilePath of filesToFetch)` loop of part_000 lines
609–646 issues exactly one `fetchGitHubFileContent` call per element. -/
def specificBranchFetchCalls (requestedFilePaths : List Str) : List Str :=
  (filesToFetch requestedFilePaths).foldl (fun acc p => acc ++ [p]) []

theorem foldl_append_singleton (l : List Str) :
    ∀ (acc : List Str), l.foldl (fun acc p => acc ++ [p]) acc = acc ++ l := by
  induction l with
  | nil => intro acc; simp
  | cons x xs ih => intro acc; simp [List.foldl_cons, ih]

/-- Claim C10: in the specific-file branch, at most 3 of the detected
candidate paths are ever fetched, and each fetched path is one of the detected
candidates. -/
theorem specificBranchFetchCalls_bound (requestedFilePaths : List Str)
    (p : Str) (hp : p ∈ specificBranchFetchCalls requestedFilePaths) :
    (specificBranchFetchCalls requestedFilePaths).length ≤ 3 ∧
      p ∈ requestedFilePaths := by
  have he : specificBranchFetchCalls requestedFilePaths =
      requestedFilePaths.take 3 := by
    unfold specificBranchFetchCalls filesToFetch
    simpa using foldl_append_singleton _ []
  rw [he] at hp ⊢
  constructor
  · rw [List.length_take]
    exact inf_le_left
  · exact List.take_subset _ _ hp

/-- Witness for C10 at a concrete four-candidate list. -/
theorem specificBranchFetchCalls_bound_witness :
    (specificBranchFetchCalls
      ["a.ts".data, "b.ts".data, "c.ts".data, "d.ts".data]).length ≤ 3 ∧
      "a.ts".data ∈ ["a.ts".data, "b.ts".data, "c.ts".data, "d.ts".data] :=
  specificBranchFetchCalls_bound
    ["a.ts".data, "b.ts".data, "c.ts".data, "d.ts".data]
    "a.ts".data (by decide)

/-!
## Base64 and percent decoding (`safeBase64Decode`, claim C8; `atob` also
backs `fetchGitHubFileContent`, claim C3)

`safeBase64Decode` (part_005 lines 33–53) cleans its input
(`-`→`+`, `_`→`/`, strip `\s`), decodes with the browser `atob`
(WHATWG forgiving-base64), percent-encodes every byte of the resulting binary
string with `'%' + ('00' + code.toString(16)).slice(-2)`, and parses the
result with `decodeURIComponent` (strict UTF-8); any exception yields the
literal `Failed to decode content`.
-/

/-- ASCII whitespace (the characters relevant to the JS `\s` class and to
forgiving-base64). -/
def isJsWS (c : Char) : Bool :=
  c = ' ' || c = '\t' || c = '\n' || c = '\r' || c = '\x0b' || c = '\x0c'

/-- Character of a 6-bit value in the standard base64 alphabet. -/
def b64Char (v : Nat) : Char :=
  if v < 26 then Char.ofNat ('A'.toNat + v)
  else if v < 52 then Char.ofNat ('a'.toNat + (v - 26))
  else if v < 62 then Char.ofNat ('0'.toNat + (v - 52))
  else if v = 62 then '+'
  else '/'

/-- 6-bit value of a standard-alphabet character, `none` outside the
alphabet. -/
def b64Val (c : Char) : Option Nat :=
  if 'A' ≤ c ∧ c ≤ 'Z' then some (c.toNat - 'A'.toNat)
  else if 'a' ≤ c ∧ c ≤ 'z' then some (c.toNat - 'a'.toNat + 26)
  else if '0' ≤ c ∧ c ≤ '9' then some (c.toNat - '0'.toNat + 52)
  else if c = '+' then some 62
  else if c = '/' then some 63
  else none

/-- Modelled from the spec: the standard (RFC 4648) base64 encoding of a byte
sequence, with `=` padding — the encoding the hosting API uses for README and
file content, and the inverse the round-trip fixture of claim C8 starts
from. -/
def encB64 : List Nat → Str
  | [] => []
  | [a] => [b64Char (a / 4), b64Char (a % 4 * 16), '=', '=']
  | [a, b] =>
    [b64Char (a / 4), b64Char (a % 4 * 16 + b / 16), b64Char (b % 16 * 4), '=']
  | a :: b :: c :: rest =>
    b64Char (a / 4) :: b64Char (a % 4 * 16 + b / 16) ::
      b64Char (b % 16 * 4 + c / 64) :: b64Char (c % 64) :: encB64 rest

/-- The base64 encoding of the UTF-8 (here: ASCII) bytes of a string. -/
def encodeBase64 (s : Str) : Str := encB64 (s.map Char.toNat)

/-- The padding-free part of `encB64` (what remains after `atob` strips the
trailing `=`). -/
def encB64NoPad : List Nat → Str
  | [] => []
  | [a] => [b64Char (a / 4), b64Char (a % 4 * 16)]
  | [a, b] =>
    [b64Char (a / 4), b64Char (a % 4 * 16 + b / 16), b64Char (b % 16 * 4)]
  | a :: b :: c :: rest =>
    b64Char (a / 4) :: b64Char (a % 4 * 16 + b / 16) ::
      b64Char (b % 16 * 4 + c / 64) :: b64Char (c % 64) :: encB64NoPad rest

/-- Drop up to two leading `=` (used on the reversed string). -/
def dropEq2 (l : Str) : Str :=
  match l with
  | c1 :: c2 :: t => if c1 = '=' then (if c2 = '=' then t else c2 :: t) else l
  | [c1] => if c1 = '=' then [] else l
  | [] => []

/-- Strip up to two trailing `=` (the padding step of forgiving-base64). -/
def stripPad (s : Str) : Str := (dropEq2 s.reverse).reverse

/-- 4-characters-to-3-bytes decoding of a clean (pad- and whitespace-free)
base64 string; a trailing group of 3 or 2 characters yields 2 or 1 bytes. -/
def decB64 : Str → Str
  | c1 :: c2 :: c3 :: c4 :: rest =>
    let v1 := (b64Val c1).getD 0
    let v2 := (b64Val c2).getD 0
    let v3 := (b64Val c3).getD 0
    let v4 := (b64Val c4).getD 0
    Char.ofNat (v1 * 4 + v2 / 16) :: Char.ofNat (v2 % 16 * 16 + v3 / 4) ::
      Char.ofNat (v3 % 4 * 64 + v4) :: decB64 rest
  | [c1, c2, c3] =>
    let v1 := (b64Val c1).getD 0
    let v2 := (b64Val c2).getD 0
    let v3 := (b64Val c3).getD 0
    [Char.ofNat (v1 * 4 + v2 / 16), Char.ofNat (v2 % 16 * 16 + v3 / 4)]
  | [c1, c2] =>
    let v1 := (b64Val c1).getD 0
    let v2 := (b64Val c2).getD 0
    [Char.ofNat (v1 * 4 + v2 / 16)]
  | _ => []

/-- The browser `atob` (WHATWG forgiving-base64 decode): strip ASCII
whitespace, strip up to two trailing `=` when the length is a multiple of 4,
then fail on a length ≡ 1 (mod 4) or on any character outside the alphabet,
else decode; output characters are the byte values. -/
def atobFn (input : Str) : Except Unit Str :=
  let s := input.filter (fun c => !(isJsWS c))
  let s2 := if s.length % 4 = 0 then stripPad s else s
  if s2.length % 4 = 1 then Except.error ()
  else if s2.any (fun c => (b64Val c).isNone) then Except.error ()
  else Except.ok (decB64 s2)

/-- Lower-case hexadecimal digit (as produced by JS `toString(16)`). -/
def hexDig (n : Nat) : Char :=
  if n < 10 then Char.ofNat ('0'.toNat + n) else Char.ofNat ('a'.toNat + (n - 10))

/-- JS `('00' + code.toString(16)).slice(-2)` for byte values (< 256). -/
def hex2 (n : Nat) : Str := [hexDig (n / 16 % 16), hexDig (n % 16)]

/-- Case-insensitive hexadecimal digit value. -/
def hexVal (c : Char) : Option Nat :=
  if '0' ≤ c ∧ c ≤ '9' then some (c.toNat - '0'.toNat)
  else if 'a' ≤ c ∧ c ≤ 'f' then some (c.toNat - 'a'.toNat + 10)
  else if 'A' ≤ c ∧ c ≤ 'F' then some (c.toNat - 'A'.toNat + 10)
  else none

/-- A token of the percent-decoding pass: a literal character, or the byte
value of one `%XX` escape. -/
inductive PctTok where
  | lit (c : Char)
  | byte (b : Nat)
deriving DecidableEq

/-- First pass of `decodeURIComponent`: turn every `%XX` escape into its byte
value (`URIError` on a malformed escape), keep literal characters. -/
def pctTokens : Str → Except Unit (List PctTok)
  | [] => Except.ok []
  | '%' :: h1 :: h2 :: rest =>
    match hexVal h1, hexVal h2 with
    | some a, some b => (pctTokens rest).map (fun out => PctTok.byte (16 * a + b) :: out)
    | _, _ => Except.error ()
  | '%' :: _ => Except.error ()
  | c :: rest => (pctTokens rest).map (fun out => PctTok.lit c :: out)

/-- State of the streaming strict UTF-8 decoder: accumulated code-point bits,
number of continuation bytes still needed, and the allowed range for the next
continuation byte (tight on the first one, to reject overlong and surrogate
encodings as `decodeURIComponent` does). -/
structure U8State where
  acc : Nat
  need : Nat
  lo : Nat
  hi : Nat
deriving DecidableEq

/-- Second pass of `decodeURIComponent`: strict UTF-8 decoding of the escape
bytes (continuation bytes must themselves come from escapes; malformed,
overlong and surrogate encodings are a `URIError`); literal characters pass
through between complete sequences. -/
def utf8Run : U8State → List PctTok → Except Unit Str
  | st, [] => if st.need = 0 then Except.ok [] else Except.error ()
  | st, PctTok.lit c :: rest =>
    if st.need = 0 then (utf8Run st rest).map (fun out => c :: out)
    else Except.error ()
  | st, PctTok.byte b :: rest =>
    if st.need = 0 then
      if b < 128 then (utf8Run st rest).map (fun out => Char.ofNat b :: out)
      else if 194 ≤ b ∧ b ≤ 223 then utf8Run ⟨b - 192, 1, 128, 191⟩ rest
      else if 224 ≤ b ∧ b ≤ 239 then
        utf8Run ⟨b - 224, 2, if b = 224 then 160 else 128,
          if b = 237 then 159 else 191⟩ rest
      else if 240 ≤ b ∧ b ≤ 244 then
        utf8Run ⟨b - 240, 3, if b = 240 then 144 else 128,
          if b = 244 then 143 else 191⟩ rest
      else Except.error ()
    else
      if st.lo ≤ b ∧ b ≤ st.hi then
        if st.need = 1 then
          (utf8Run ⟨0, 0, 0, 0⟩ rest).map (fun out =>
            Char.ofNat (st.acc * 64 + (b - 128)) :: out)
        else utf8Run ⟨st.acc * 64 + (b - 128), st.need - 1, 128, 191⟩ rest
      else Except.error ()

/-- UTF-8 decoding of a token list, starting outside any sequence. -/
def utf8Toks (toks : List PctTok) : Except Unit Str :=
  utf8Run ⟨0, 0, 0, 0⟩ toks

/-- The JS builtin `decodeURIComponent`: percent-escapes are decoded as
strict UTF-8, any malformed input is a `URIError` (modelled as
`Except.error`). -/
def decodeURIComp (s : Str) : Except Unit Str :=
  match pctTokens s with
  | Except.error e => Except.error e
  | Except.ok toks => utf8Toks toks

/-- `safeBase64Decode` (part_005 lines 33–53), embedded from the source:
clean, `atob`, percent-encode each byte, `decodeURIComponent`; the `catch`
yields the literal fallback string. -/
def safeBase64Decode (str : Str) : Str :=
  let base64 :=
    ((str.map (fun c => if c = '-' then '+' else c)).map
      (fun c => if c = '_' then '/' else c)).filter (fun c => !(isJsWS c))
  match atobFn base64 with
  | Except.error _ => "Failed to decode content".data
  | Except.ok bin =>
    match decodeURIComp ((bin.map (fun c => '%' :: hex2 c.toNat)).flatten) with
    | Except.error _ => "Failed to decode content".data
    | Except.ok out => out

theorem char_toNat_ofNat (b : Nat) (h : b < 55296) : (Char.ofNat b).toNat = b := by
  unfold Char.ofNat Char.toNat
  split
  · rfl
  case isFalse hf => exact absurd (Or.inl h) hf

theorem b64Char_facts : ∀ v ∈ List.range 64,
    b64Val (b64Char v) = some v ∧ b64Char v ≠ '-' ∧ b64Char v ≠ '_' ∧
      isJsWS (b64Char v) = false ∧ b64Char v ≠ '=' := by decide

theorem hexDig_facts : ∀ v ∈ List.range 16, hexVal (hexDig v) = some v := by
  decide

/-- Number of `=` padding characters of the standard encoding. -/
def padLen (bs : List Nat) : Nat :=
  match bs.length % 3 with
  | 1 => 2
  | 2 => 1
  | _ => 0

theorem padLen_le_two (bs : List Nat) : padLen bs ≤ 2 := by
  unfold padLen
  split <;> omega

theorem padLen_cons3 (a b c : Nat) (rest : List Nat) :
    padLen (a :: b :: c :: rest) = padLen rest := by
  unfold padLen
  have h3 : (a :: b :: c :: rest).length % 3 = rest.length % 3 := by
    simp only [List.length_cons]
    omega
  rw [h3]

theorem encB64_eq_noPad_pad : ∀ (bs : List Nat),
    encB64 bs = encB64NoPad bs ++ List.replicate (padLen bs) '=' := by
  intro bs
  induction bs using encB64.induct with
  | case1 => rfl
  | case2 a => rfl
  | case3 a b => rfl
  | case4 a b c rest ih =>
    rw [encB64, encB64NoPad, ih, padLen_cons3]
    simp

theorem encB64NoPad_chars : ∀ (bs : List Nat), (∀ x ∈ bs, x < 256) →
    ∀ c ∈ encB64NoPad bs, ∃ v, v < 64 ∧ c = b64Char v := by
  intro bs
  induction bs using encB64NoPad.induct with
  | case1 =>
    intro _ c hc
    simp [encB64NoPad] at hc
  | case2 a =>
    intro hx c hc
    have ha := hx a (by simp)
    simp only [encB64NoPad, List.mem_cons, List.not_mem_nil, or_false] at hc
    rcases hc with rfl | rfl
    · exact ⟨a / 4, by omega, rfl⟩
    · exact ⟨a % 4 * 16, by omega, rfl⟩
  | case3 a b =>
    intro hx c hc
    have ha := hx a (by simp)
    have hb := hx b (by simp)
    simp only [encB64NoPad, List.mem_cons, List.not_mem_nil, or_false] at hc
    rcases hc with rfl | rfl | rfl
    · exact ⟨a / 4, by omega, rfl⟩
    · exact ⟨a % 4 * 16 + b / 16, by omega, rfl⟩
    · exact ⟨b % 16 * 4, by omega, rfl⟩
  | case4 a b c rest ih =>
    intro hx d hd
    have ha := hx a (by simp)
    have hb := hx b (by simp)
    have hc2 := hx c (by simp)
    simp only [encB64NoPad, List.mem_cons] at hd
    rcases hd with rfl | rfl | rfl | rfl | hd
    · exact ⟨a / 4, by omega, rfl⟩
    · exact ⟨a % 4 * 16 + b / 16, by omega, rfl⟩
    · exact ⟨b % 16 * 4 + c / 64, by omega, rfl⟩
    · exact ⟨c % 64, by omega, rfl⟩
    · exact ih (fun x hxm => hx x (by simp [hxm])) d hd

theorem encB64NoPad_good (bs : List Nat) (hx : ∀ x ∈ bs, x < 256) :
    ∀ c ∈ encB64NoPad bs,
      (b64Val c).isSome = true ∧ c ≠ '-' ∧ c ≠ '_' ∧ isJsWS c = false ∧
        c ≠ '=' := by
  intro c hc
  obtain ⟨v, hv, rfl⟩ := encB64NoPad_chars bs hx c hc
  have hf := b64Char_facts v (List.mem_range.mpr hv)
  exact ⟨by simp [hf.1], hf.2.1, hf.2.2.1, hf.2.2.2.1, hf.2.2.2.2⟩

theorem encB64_good (bs : List Nat) (hx : ∀ x ∈ bs, x < 256) :
    ∀ c ∈ encB64 bs, c ≠ '-' ∧ c ≠ '_' ∧ isJsWS c = false := by
  intro c hc
  rw [encB64_eq_noPad_pad] at hc
  rcases List.mem_append.mp hc with h | h
  · have hg := encB64NoPad_good bs hx c h
    exact ⟨hg.2.1, hg.2.2.1, hg.2.2.2.1⟩
  · have : c = '=' := List.eq_of_mem_replicate h
    subst this
    exact ⟨by decide, by decide, by decide⟩

theorem encB64_length_mod (bs : List Nat) : (encB64 bs).length % 4 = 0 := by
  induction bs using encB64.induct with
  | case1 => rfl
  | case2 a => simp [encB64]
  | case3 a b => simp [encB64]
  | case4 a b c rest ih =>
    rw [encB64]
    simp only [List.length_cons]
    omega

theorem encB64NoPad_length_mod (bs : List Nat) :
    (encB64NoPad bs).length % 4 ≠ 1 := by
  induction bs using encB64NoPad.induct with
  | case1 => simp [encB64NoPad]
  | case2 a => simp [encB64NoPad]
  | case3 a b => simp [encB64NoPad]
  | case4 a b c rest ih =>
    rw [encB64NoPad]
    simp only [List.length_cons]
    omega

theorem dropEq2_no_eq (l : Str) (h : ∀ c ∈ l, c ≠ '=') : dropEq2 l = l := by
  match l with
  | [] => rfl
  | [c1] => simp [dropEq2, h c1 (by simp)]
  | c1 :: c2 :: t => simp [dropEq2, h c1 (by simp)]

theorem dropEq2_two (t : Str) : dropEq2 ('=' :: '=' :: t) = t := by
  simp [dropEq2]

theorem dropEq2_one_ne (x : Char) (t : Str) (hx : x ≠ '=') :
    dropEq2 ('=' :: x :: t) = x :: t := by
  simp [dropEq2, hx]

theorem dropEq2_one_nil : dropEq2 ['='] = [] := by
  simp [dropEq2]

theorem stripPad_spec (s : Str) (h : ∀ c ∈ s, c ≠ '=') :
    ∀ k, k ≤ 2 → stripPad (s ++ List.replicate k '=') = s := by
  have hrev : ∀ c ∈ s.reverse, c ≠ '=' := fun c hc => h c (List.mem_reverse.mp hc)
  intro k hk
  unfold stripPad
  interval_cases k
  · simp only [List.replicate, List.append_nil]
    rw [dropEq2_no_eq _ hrev, List.reverse_reverse]
  · rw [List.reverse_append,
      show (List.replicate 1 '=').reverse = ['='] from rfl]
    simp only [List.cons_append, List.nil_append]
    cases hs : s.reverse with
    | nil =>
      rw [dropEq2_one_nil, List.reverse_nil]
      rw [← List.reverse_reverse s, hs, List.reverse_nil]
    | cons x t =>
      have hx : x ≠ '=' := hrev x (by rw [hs]; simp)
      rw [dropEq2_one_ne x t hx, ← hs, List.reverse_reverse]
  · rw [List.reverse_append,
      show (List.replicate 2 '=').reverse = ['=', '='] from rfl]
    simp only [List.cons_append, List.nil_append]
    rw [dropEq2_two, List.reverse_reverse]

theorem stripPad_encB64 (bs : List Nat) (hx : ∀ x ∈ bs, x < 256) :
    stripPad (encB64 bs) = encB64NoPad bs := by
  rw [encB64_eq_noPad_pad]
  exact stripPad_spec _ (fun c hc => (encB64NoPad_good bs hx c hc).2.2.2.2)
    _ (padLen_le_two bs)

theorem decB64_encB64NoPad (bs : List Nat) (hx : ∀ x ∈ bs, x < 256) :
    decB64 (encB64NoPad bs) = bs.map Char.ofNat := by
  induction bs using encB64NoPad.induct with
  | case1 => rfl
  | case2 a =>
    have ha := hx a (by simp)
    have h1 := (b64Char_facts (a / 4) (List.mem_range.mpr (by omega))).1
    have h2 := (b64Char_facts (a % 4 * 16) (List.mem_range.mpr (by omega))).1
    simp only [encB64NoPad, decB64, h1, h2, Option.getD_some, List.map_cons,
      List.map_nil]
    have e1 : a / 4 * 4 + a % 4 * 16 / 16 = a := by omega
    rw [e1]
  | case3 a b =>
    have ha := hx a (by simp)
    have hb := hx b (by simp)
    have h1 := (b64Char_facts (a / 4) (List.mem_range.mpr (by omega))).1
    have h2 := (b64Char_facts (a % 4 * 16 + b / 16) (List.mem_range.mpr (by omega))).1
    have h3 := (b64Char_facts (b % 16 * 4) (List.mem_range.mpr (by omega))).1
    simp only [encB64NoPad, decB64, h1, h2, h3, Option.getD_some, List.map_cons,
      List.map_nil]
    have e1 : a / 4 * 4 + (a % 4 * 16 + b / 16) / 16 = a := by omega
    have e2 : (a % 4 * 16 + b / 16) % 16 * 16 + b % 16 * 4 / 4 = b := by omega
    rw [e1, e2]
  | case4 a b c rest ih =>
    have ha := hx a (by simp)
    have hb := hx b (by simp)
    have hc2 := hx c (by simp)
    have h1 := (b64Char_facts (a / 4) (List.mem_range.mpr (by omega))).1
    have h2 := (b64Char_facts (a % 4 * 16 + b / 16) (List.mem_range.mpr (by omega))).1
    have h3 := (b64Char_facts (b % 16 * 4 + c / 64) (List.mem_range.mpr (by omega))).1
    have h4 := (b64Char_facts (c % 64) (List.mem_range.mpr (by omega))).1
    simp only [encB64NoPad, decB64, h1, h2, h3, h4, Option.getD_some,
      List.map_cons]
    have e1 : a / 4 * 4 + (a % 4 * 16 + b / 16) / 16 = a := by omega
    have e2 : (a % 4 * 16 + b / 16) % 16 * 16 + (b % 16 * 4 + c / 64) / 4 = b := by
      omega
    have e3 : (b % 16 * 4 + c / 64) % 4 * 64 + c % 64 = c := by omega
    rw [e1, e2, e3, ih (fun x hxm => hx x (by simp [hxm]))]

theorem atobFn_encB64 (bs : List Nat) (hx : ∀ x ∈ bs, x < 256) :
    atobFn (encB64 bs) = Except.ok (bs.map Char.ofNat) := by
  unfold atobFn
  dsimp only
  have hfil : (encB64 bs).filter (fun c => !(isJsWS c)) = encB64 bs := by
    apply List.filter_eq_self.mpr
    intro c hc
    simp [(encB64_good bs hx c hc).2.2]
  rw [hfil, if_pos (encB64_length_mod bs), stripPad_encB64 bs hx]
  rw [if_neg (encB64NoPad_length_mod bs)]
  rw [if_neg ?hval]
  case hval =>
    intro hany
    rcases List.any_eq_true.mp hany with ⟨c, hc, hnone⟩
    have := (encB64NoPad_good bs hx c hc).1
    simp only [Option.isNone_iff_eq_none] at hnone
    rw [hnone] at this
    simp at this
  rw [decB64_encB64NoPad bs hx]

theorem pctTokens_escapes : ∀ (bs : List Nat), (∀ x ∈ bs, x < 256) →
    pctTokens ((bs.map (fun b => '%' :: hex2 b)).flatten) =
      Except.ok (bs.map PctTok.byte) := by
  intro bs
  induction bs with
  | nil => intro _; rfl
  | cons b rest ih =>
    intro hx
    have hb := hx b (by simp)
    simp only [List.map_cons, List.flatten_cons]
    rw [show '%' :: hex2 b ++ (List.map (fun b => '%' :: hex2 b) rest).flatten =
        '%' :: hexDig (b / 16 % 16) :: hexDig (b % 16) ::
          (List.map (fun b => '%' :: hex2 b) rest).flatten from rfl]
    have h1 := hexDig_facts (b / 16 % 16) (List.mem_range.mpr (by omega))
    have h2 := hexDig_facts (b % 16) (List.mem_range.mpr (by omega))
    rw [pctTokens, h1, h2]
    dsimp only
    rw [ih (fun x hxm => hx x (by simp [hxm]))]
    have hbyte : 16 * (b / 16 % 16) + b % 16 = b := by omega
    rw [hbyte]
    rfl

theorem utf8Toks_ascii : ∀ (bs : List Nat), (∀ x ∈ bs, x < 128) →
    utf8Toks (bs.map PctTok.byte) = Except.ok (bs.map Char.ofNat) := by
  intro bs
  unfold utf8Toks
  induction bs with
  | nil => intro _; rfl
  | cons b rest ih =>
    intro hx
    have hb := hx b (by simp)
    simp only [List.map_cons]
    rw [utf8Run, if_pos rfl, if_pos hb, ih (fun x hxm => hx x (by simp [hxm]))]
    rfl

theorem decodeURIComp_escapes (bs : List Nat) (hx : ∀ x ∈ bs, x < 128) :
    decodeURIComp ((bs.map (fun b => '%' :: hex2 b)).flatten) =
      Except.ok (bs.map Char.ofNat) := by
  unfold decodeURIComp
  rw [pctTokens_escapes bs (fun x hxm => by have := hx x hxm; omega)]
  exact utf8Toks_ascii bs hx

/-- Claim C8: decoding the standard base64 encoding of an ASCII-only string
with `safeBase64Decode` gives back exactly that string. -/
theorem map_noop {f : Char → Char} (l : Str) (h : ∀ c ∈ l, f c = c) :
    l.map f = l := by
  induction l with
  | nil => rfl
  | cons x t ih =>
    simp only [List.map_cons, h x (by simp),
      ih (fun c hc => h c (by simp [hc]))]

theorem safeBase64Decode_roundtrip (s : Str) (h : ∀ c ∈ s, c.toNat < 128) :
    safeBase64Decode (encodeBase64 s) = s := by
  unfold safeBase64Decode encodeBase64
  dsimp only
  have hb : ∀ x ∈ s.map Char.toNat, x < 256 := by
    intro x hxm
    rcases List.mem_map.mp hxm with ⟨c, hc, rfl⟩
    have := h c hc
    omega
  have hb128 : ∀ x ∈ s.map Char.toNat, x < 128 := by
    intro x hxm
    rcases List.mem_map.mp hxm with ⟨c, hc, rfl⟩
    exact h c hc
  have hclean1 : (encB64 (s.map Char.toNat)).map
      (fun c => if c = '-' then '+' else c) = encB64 (s.map Char.toNat) :=
    map_noop _ (fun c hc => if_neg (encB64_good _ hb c hc).1)
  have hclean2 : (encB64 (s.map Char.toNat)).map
      (fun c => if c = '_' then '/' else c) = encB64 (s.map Char.toNat) :=
    map_noop _ (fun c hc => if_neg (encB64_good _ hb c hc).2.1)
  have hclean3 : (encB64 (s.map Char.toNat)).filter
      (fun c => !(isJsWS c)) = encB64 (s.map Char.toNat) :=
    List.filter_eq_self.mpr
      (fun c hc => by simp [(encB64_good _ hb c hc).2.2])
  rw [hclean1, hclean2, hclean3, atobFn_encB64 _ hb]
  dsimp only
  have hbin : ((s.map Char.toNat).map Char.ofNat).map
      (fun c => '%' :: hex2 c.toNat) =
      (s.map Char.toNat).map (fun b => '%' :: hex2 b) := by
    rw [List.map_map]
    apply List.map_congr_left
    intro b hbm
    have hlt := hb128 b hbm
    simp only [Function.comp_apply]
    rw [char_toNat_ofNat b (by omega)]
  rw [hbin, decodeURIComp_escapes _ hb128]
  dsimp only
  rw [List.map_map]
  exact map_noop _ (fun c _ => by
    simp only [Function.comp_apply, Char.ofNat_toNat])

/-- Witness for C8 at the concrete ASCII string `Hello, world!`. -/
theorem safeBase64Decode_roundtrip_witness :
    safeBase64Decode (encodeBase64 "Hello, world!".data) =
      "Hello, world!".data :=
  safeBase64Decode_roundtrip "Hello, world!".data (by decide)

/-!
## Content fetcher (`fetchGitHubFileContent`, part_000 lines 174–227; claim C3)

The function is embedded over a `FetchWorld` describing the outcome of each
of the three network calls it can make.  `netThrow` covers both a rejected
`fetch` and a throwing `response.json()`/`response.text()` — every such
exception reaches the function's single `catch`, which returns `null`.  The
leading-slash clean-up of the path only affects the request URLs and has no
observable effect in this model.
-/

/-- The three sources tried, in order. -/
inductive FetchSource where
  | api
  | rawMain
  | rawMaster
deriving DecidableEq

/-- JS `data.content.replace(/\n/g, '')`. -/
def stripNL (s : Str) : Str := s.filter (fun ch => ch ≠ '\n')

/-- Outcome of the structured contents-API call: an exception, a non-2xx
response, or a parsed JSON body with optional `content` and `encoding`
fields. -/
inductive ApiAttempt where
  | netThrow
  | notOk
  | ok (content : Option Str) (encoding : Option Str)
deriving DecidableEq

/-- Outcome of a raw-content URL call. -/
inductive RawAttempt where
  | netThrow
  | notOk
  | ok (text : Str)
deriving DecidableEq

/-- Outcomes of the three calls `fetchGitHubFileContent` can make. -/
structure FetchWorld where
  api : ApiAttempt
  rawMain : RawAttempt
  rawMaster : RawAttempt

/-- The fall-through of part_000 lines 200–222: the raw `main`-branch URL,
then the raw `master`-branch URL, then `return null`; a throw anywhere is
caught by the enclosing `catch`, which returns `null`.  Second component:
the sources actually requested. -/
def fetchRawFallback (w : FetchWorld) : Option Str × List FetchSource :=
  match w.rawMain with
  | RawAttempt.netThrow => (none, [FetchSource.api, FetchSource.rawMain])
  | RawAttempt.ok text => (some text, [FetchSource.api, FetchSource.rawMain])
  | RawAttempt.notOk =>
    match w.rawMaster with
    | RawAttempt.netThrow =>
      (none, [FetchSource.api, FetchSource.rawMain, FetchSource.rawMaster])
    | RawAttempt.ok text =>
      (some text, [FetchSource.api, FetchSource.rawMain, FetchSource.rawMaster])
    | RawAttempt.notOk =>
      (none, [FetchSource.api, FetchSource.rawMain, FetchSource.rawMaster])

/-- `fetchGitHubFileContent` (part_000 lines 174–227): the contents API
first — on a 2xx response with truthy `content` and `encoding === 'base64'`,
`atob(data.content.replace(/\n/g, ''))` is returned (an `atob` throw reaches
the `catch` and yields `null`) — otherwise the raw-URL fall-through. -/
def fetchGitHubFileContent (w : FetchWorld) : Option Str × List FetchSource :=
  match w.api with
  | ApiAttempt.netThrow => (none, [FetchSource.api])
  | ApiAttempt.notOk => fetchRawFallback w
  | ApiAttempt.ok content encoding =>
    match content with
    | none => fetchRawFallback w
    | some c =>
      if !c.isEmpty && decide (encoding = some "base64".data) then
        match atobFn (stripNL c) with
        | Except.ok d => (some d, [FetchSource.api])
        | Except.error _ => (none, [FetchSource.api])
      else fetchRawFallback w

/-- Modelled from the spec (§4.1): per-source outcome — `error` is a thrown
exception, `ok none` an unsuccessful attempt, `ok (some t)` a success.  For
the structured API, success means a 2xx response whose base64 `content`
decodes. -/
def apiOutcome (w : FetchWorld) : Except Unit (Option Str) :=
  match w.api with
  | ApiAttempt.netThrow => Except.error ()
  | ApiAttempt.notOk => Except.ok none
  | ApiAttempt.ok content encoding =>
    match content with
    | none => Except.ok none
    | some c =>
      if !c.isEmpty && decide (encoding = some "base64".data) then
        match atobFn (stripNL c) with
        | Except.ok d => Except.ok (some d)
        | Except.error e => Except.error e
      else Except.ok none

/-- Modelled from the spec (§4.1): outcome of a raw-content URL attempt. -/
def rawOutcome : RawAttempt → Except Unit (Option Str)
  | RawAttempt.netThrow => Except.error ()
  | RawAttempt.notOk => Except.ok none
  | RawAttempt.ok t => Except.ok (some t)

/-- Modelled from the spec (§4.1): the first successful result of the
attempts, absent when all fail, with any exception converted to absent
rather than propagated. -/
def firstSuccess : List (Except Unit (Option Str)) → Option Str
  | [] => none
  | Except.error _ :: _ => none
  | Except.ok (some t) :: _ => some t
  | Except.ok none :: rest => firstSuccess rest

/-- Modelled from the spec (§4.1 Content Fetcher): try the structured
contents API, the raw `main` URL, then the raw `master` URL, in that order. -/
def fetchFileSpec (w : FetchWorld) : Option Str :=
  firstSuccess [apiOutcome w, rawOutcome w.rawMain, rawOutcome w.rawMaster]

/-- Claim C3: `fetchGitHubFileContent` returns exactly the first successful
result of the three sources in order (API, raw `main`, raw `master`), `none`
when all fail or on any exception, and the set of sources it requests is
always an initial segment of that order. -/
theorem fetchGitHubFileContent_spec (w : FetchWorld) :
    (fetchGitHubFileContent w).1 = fetchFileSpec w ∧
    (fetchGitHubFileContent w).2 ∈
      [[FetchSource.api],
       [FetchSource.api, FetchSource.rawMain],
       [FetchSource.api, FetchSource.rawMain, FetchSource.rawMaster]] := by
  rcases w with ⟨api, rm, rms⟩
  cases api with
  | netThrow =>
    simp [fetchGitHubFileContent, fetchFileSpec, firstSuccess, apiOutcome]
  | notOk =>
    cases rm <;> cases rms <;>
      simp [fetchGitHubFileContent, fetchFileSpec, firstSuccess, apiOutcome,
        rawOutcome, fetchRawFallback]
  | ok content encoding =>
    cases content with
    | none =>
      cases rm <;> cases rms <;>
        simp [fetchGitHubFileContent, fetchFileSpec, firstSuccess, apiOutcome,
          rawOutcome, fetchRawFallback]
    | some c =>
      by_cases hcond : (!c.isEmpty && decide (encoding = some "base64".data)) = true
      · cases hat : atobFn (stripNL c) <;>
          simp [fetchGitHubFileContent, fetchFileSpec, firstSuccess, apiOutcome,
            rawOutcome, fetchRawFallback, hcond, hat]
      · cases rm <;> cases rms <;>
          simp [fetchGitHubFileContent, fetchFileSpec, firstSuccess, apiOutcome,
            rawOutcome, fetchRawFallback, hcond]

/-!
## Gemini completion entry points (claim C7)

`generateRepoDocumentation` (part_000 lines 12–169) and `queryRepoWithGemini`
(part_000 lines 333–744) both start with:
  * a missing-key guard (`!GEMINI_API_KEY`) returning a fixed markdown / chat
    message, and
  * a format guard (`!GEMINI_API_KEY.startsWith('AIza')`) returning a fixed
    invalid-key message,
both before any `fetch` is issued.  The rest of each function is modelled by
the outcome of its Gemini POST; the second component of the result counts the
network requests issued by the modelled function (the guards issue none).
The distinct user-visible strings are modelled as constructors.
-/

/-- Outcome of the Gemini `generateContent` POST: success with the extracted
candidate text, a non-2xx status, a JSON-parse throw, a parsed body without
candidate text, or a rejected fetch. -/
inductive GeminiOutcome where
  | success (text : Str)
  | httpError
  | parseThrow
  | emptyResponse
  | netThrow
deriving DecidableEq

/-- User-visible result of `generateRepoDocumentation`: the missing-key
markdown, the invalid-key markdown, the catch-all failure markdown (with the
error details of the outcome), or the generated documentation. -/
inductive DocResult where
  | missingKeyMsg
  | invalidKeyMsg
  | failureMsg (o : GeminiOutcome)
  | content (text : Str)
deriving DecidableEq

/-- User-visible result of `queryRepoWithGemini`: the missing-key chat
message, the invalid-key chat message, the catch-all apology (with error
details), or the answer. -/
inductive QueryResult where
  | missingKeyMsg
  | invalidKeyMsg
  | failureMsg (o : GeminiOutcome)
  | answer (text : Str)
deriving DecidableEq

/-- `generateRepoDocumentation` (part_000 lines 12–169): key guards, then the
try block around the Gemini POST; every failure inside the try block reaches
the catch and yields the failure markdown.  Second component: number of
network requests issued. -/
def generateRepoDocumentation (apiKey : Str) (o : GeminiOutcome) :
    DocResult × Nat :=
  if apiKey.isEmpty then (DocResult.missingKeyMsg, 0)
  else if !(startsWithStr "AIza".data apiKey) then (DocResult.invalidKeyMsg, 0)
  else
    match o with
    | GeminiOutcome.success t => (DocResult.content t, 1)
    | o => (DocResult.failureMsg o, 1)

/-- `queryRepoWithGemini` (part_000 lines 333–744): the same key guards, then
the question-handling branches and the Gemini POST; the GitHub fetches of the
branches and the POST all happen after the guards, so the guard paths issue
no request (the count abstracts the post-guard requests as the single
POST). -/
def queryRepoWithGemini (apiKey : Str) (o : GeminiOutcome) :
    QueryResult × Nat :=
  if apiKey.isEmpty then (QueryResult.missingKeyMsg, 0)
  else if !(startsWithStr "AIza".data apiKey) then (QueryResult.invalidKeyMsg, 0)
  else
    match o with
    | GeminiOutcome.success t => (QueryResult.answer t, 1)
    | o => (QueryResult.failureMsg o, 1)

/-- Claim C7: with a non-empty key that does not start with `AIza`, both
entry points return their invalid-key failure message and issue no network
request, whatever the network would have answered. -/
theorem invalid_key_no_request (apiKey : Str) (o o2 : GeminiOutcome)
    (hne : apiKey ≠ [])
    (hpre : startsWithStr "AIza".data apiKey = false) :
    generateRepoDocumentation apiKey o = (DocResult.invalidKeyMsg, 0) ∧
    queryRepoWithGemini apiKey o2 = (QueryResult.invalidKeyMsg, 0) := by
  have hempty : apiKey.isEmpty = false := by
    cases apiKey with
    | nil => exact absurd rfl hne
    | cons x t => rfl
  unfold generateRepoDocumentation queryRepoWithGemini
  rw [hempty, hpre]
  simp

/-- Witness for C7 at the concrete key `BAD-KEY`. -/
theorem invalid_key_no_request_witness :
    generateRepoDocumentation "BAD-KEY".data (GeminiOutcome.success "ok".data) =
      (DocResult.invalidKeyMsg, 0) ∧
    queryRepoWithGemini "BAD-KEY".data (GeminiOutcome.success "ok".data) =
      (QueryResult.invalidKeyMsg, 0) :=
  invalid_key_no_request "BAD-KEY".data
    (GeminiOutcome.success "ok".data) (GeminiOutcome.success "ok".data)
    (by decide) (by decide)

/-!
## Directory-structure acquisition (part_005 lines 118–279; claim C9)

`fetchRepositoryStructure` fetches the root listing (one request), then for
up to 2 important top-level directories calls `fetchDirectoryContents`, which
issues one request per directory and recurses into up to 2 subdirectories —
with NO depth limit, despite its comment `(limited depth to avoid API rate
limits)`.  The repository is modelled as a tree; a `dir` with `children =
none` is one whose contents request fails.  The functions below count the
requests the two source functions issue against such a repository.
-/

/-- A repository subtree as the GitHub contents API exposes it. -/
inductive FsTree where
  | file (name : Str)
  | dir (name : Str) (children : Option (List FsTree))

mutual

/-- Requests issued by `fetchDirectoryContents` on a directory: one for its
contents, plus the recursion into up to 2 subdirectories. -/
def dirRequests : FsTree → Nat
  | FsTree.file _ => 0
  | FsTree.dir _ none => 1
  | FsTree.dir _ (some cs) => 1 + subdirRequests 2 cs

/-- Requests issued by the loop `for (const subdir of subdirs.slice(0, 2))`
over a child list, with the remaining budget of the slice. -/
def subdirRequests : Nat → List FsTree → Nat
  | _, [] => 0
  | 0, _ :: _ => 0
  | budget + 1, FsTree.file _ :: rest => subdirRequests (budget + 1) rest
  | budget + 1, FsTree.dir nm ch :: rest =>
    dirRequests (FsTree.dir nm ch) + subdirRequests budget rest

end

/-- The important top-level directory names of part_005 line 210. -/
def importantDirNames : List Str :=
  ["src".data, "app".data, "pages".data, "components".data]

def isImportantDir : FsTree → Bool
  | FsTree.dir nm _ => importantDirNames.contains nm
  | FsTree.file _ => false

/-- Requests issued by `fetchRepositoryStructure` for one repository view:
one for the root listing; if it succeeds, `fetchDirectoryContents` for the
first 2 important top-level directories. -/
def structureRequests (root : Option (List FsTree)) : Nat :=
  match root with
  | none => 1
  | some cs => 1 + (((cs.filter isImportantDir).take 2).map dirRequests).sum

/-- A repository that is a chain of `n + 1` nested directories under the
root, each named `src`. -/
def chainDir : Nat → FsTree
  | 0 => FsTree.dir "src".data (some [])
  | n + 1 => FsTree.dir "src".data (some [chainDir n])

def chainWorld (n : Nat) : Option (List FsTree) := some [chainDir n]

theorem chainDir_shape (n : Nat) :
    ∃ ch, chainDir n = FsTree.dir "src".data ch := by
  cases n with
  | zero => exact ⟨some [], rfl⟩
  | succ k => exact ⟨some [chainDir k], rfl⟩

theorem dirRequests_chain : ∀ (n : Nat), dirRequests (chainDir n) = n + 1 := by
  intro n
  induction n with
  | zero => rfl
  | succ k ih =>
    obtain ⟨ch, hch⟩ := chainDir_shape k
    show dirRequests (FsTree.dir "src".data (some [chainDir k])) = k + 2
    rw [dirRequests, hch, subdirRequests, ← hch, ih, subdirRequests]
    omega

/-- Claim C9 (the code at the failing input): against a repository whose
`src` directory nests a chain of `n` further directories, one repository view
issues `n + 2` requests — growing without bound with the nesting depth,
because `fetchDirectoryContents` has no depth limit.  The per-level sibling
cap of 2 is real (the `slice(0, 2)` in both functions), but it does not bound
the total by a constant. -/
theorem structureRequests_chain (n : Nat) :
    structureRequests (chainWorld n) = n + 2 := by
  unfold structureRequests chainWorld
  obtain ⟨ch, hch⟩ := chainDir_shape n
  rw [hch]
  have himp : isImportantDir (FsTree.dir "src".data ch) = true := rfl
  simp only [List.filter, himp, List.take, List.map, List.sum_cons,
    List.sum_nil]
  rw [← hch, dirRequests_chain]
  omega
